import Mathlib

/-!
Verification of the `pipeExtract` pattern-extraction pipe from the
`lib/logstorage` part of the VictoriaMetrics repository, together with the
spec's claims about it.

Go strings are modelled as `List Char` (`Str`).  Byte offsets become
character offsets; all inputs exercised by the theorems are ASCII, where
the two coincide.  Fallible Go code (errors, panics) is modelled with
`Except` / `Option`.
-/

set_option maxHeartbeats 1000000
set_option linter.unusedVariables false

abbrev Str := List Char

/-- The double-quote character `"`. -/
def dq : Char := Char.ofNat 34

/-- The backtick character. -/
def bq : Char := Char.ofNat 96

/-- The backslash character. -/
def bsl : Char := Char.ofNat 92

/-- The newline character. -/
def nl : Char := Char.ofNat 10

/-- The carriage-return character. -/
def cr : Char := Char.ofNat 13

/-- Model of Go `strings.Index(s, pat)`: index of the first occurrence of
`pat` as a substring of `s`, `none` when absent (Go returns -1). -/
def indexOfSub : Str → Str → Option Nat
  | s, pat =>
    if pat.isPrefixOf s then some 0
    else match s with
      | [] => none
      | _ :: t => (indexOfSub t pat).map (· + 1)

/-- Model of Go `strings.Contains(s, pat)`. -/
def containsSubstr (s pat : Str) : Bool :=
  (indexOfSub s pat).isSome

/-- Split `s` at the first occurrence of the character `c`:
`some (before, after)` with `s = before ++ c :: after`, `none` when `c`
does not occur.  This models the Go idiom
`n := strings.IndexByte(s, c); s[:n], s[n+1:]`. -/
def splitOnChar (c : Char) : Str → Option (Str × Str)
  | [] => none
  | a :: rest =>
    if a = c then some ([], rest)
    else (splitOnChar c rest).map (fun p => (a :: p.1, p.2))

theorem splitOnChar_eq_none_iff (c : Char) (s : Str) :
    splitOnChar c s = none ↔ c ∉ s := by
  induction s with
  | nil => simp [splitOnChar]
  | cons a rest ih =>
    by_cases h : a = c
    · subst h
      simp [splitOnChar]
    · simp only [splitOnChar, if_neg h, Option.map_eq_none', ih,
        List.mem_cons]
      constructor
      · intro hr hmem
        rcases hmem with hmem | hmem
        · exact h hmem.symm
        · exact hr hmem
      · intro hh hmem
        exact hh (Or.inr hmem)

theorem splitOnChar_eq_some (c : Char) (s l r : Str)
    (h : splitOnChar c s = some (l, r)) :
    s = l ++ c :: r ∧ c ∉ l := by
  induction s generalizing l with
  | nil => simp [splitOnChar] at h
  | cons a rest ih =>
    by_cases hac : a = c
    · simp only [splitOnChar, if_pos hac, Option.some.injEq, Prod.mk.injEq] at h
      rcases h with ⟨hl, hr⟩
      subst hl; subst hr; subst hac
      simp
    · simp only [splitOnChar, if_neg hac, Option.map_eq_some'] at h
      rcases h with ⟨⟨l', r'⟩, hsplit, heq⟩
      simp only [Prod.mk.injEq] at heq
      rcases heq with ⟨hl, hr⟩
      subst hr
      rcases ih l' hsplit with ⟨hs, hc⟩
      subst hl
      refine ⟨by simp [hs], ?_⟩
      intro hmem
      rcases List.mem_cons.mp hmem with hmem | hmem
      · exact hac hmem.symm
      · exact hc hmem

theorem splitOnChar_some_length (c : Char) (s : Str) (p : Str × Str)
    (h : splitOnChar c s = some p) : p.2.length < s.length := by
  rcases p with ⟨l, r⟩
  rcases splitOnChar_eq_some c s l r h with ⟨hs, -⟩
  subst hs
  simp only [List.length_append, List.length_cons]
  omega

theorem splitOnChar_some_mem (c : Char) (s : Str) (p : Str × Str)
    (h : splitOnChar c s = some p) : c ∈ s := by
  rcases p with ⟨l, r⟩
  rcases splitOnChar_eq_some c s l r h with ⟨hs, -⟩
  subst hs
  simp

/-! ## Model of the Go standard-library helpers used by the matcher

`tryUnquoteString` relies on `strconv.QuotedPrefix` / `strconv.Unquote`.
We model the combination directly: parse a double-quoted or backquoted
span at the head of the input and return `(unquoted content, remainder)`
instead of `(content, byte offset, ok)` — the remainder is exactly the
input past the offset.  The escape handling follows Go `strconv`:
simple escapes, `\xHH`, `\uHHHH`, `\UHHHHHHHH` and three-digit octal.
Two byte-level details are approximated in the rune-based model: a `\xHH`
or octal escape above 0x7F yields the code point of that value (Go
appends the raw byte), and a surrogate `\u`/`\U` escape yields U+FFFD
(Go encodes it as the replacement character as well). -/

/-- Value of a hexadecimal digit character. -/
def hexVal (c : Char) : Option Nat :=
  if '0' ≤ c ∧ c ≤ '9' then some (c.toNat - 48)
  else if 'a' ≤ c ∧ c ≤ 'f' then some (c.toNat - 87)
  else if 'A' ≤ c ∧ c ≤ 'F' then some (c.toNat - 55)
  else none

/-- Value of an octal digit character. -/
def octVal (c : Char) : Option Nat :=
  if '0' ≤ c ∧ c ≤ '7' then some (c.toNat - 48) else none

/-- The rune produced by a `\u` / `\U` escape of value `v`:
rejected above the maximal rune, surrogates become U+FFFD. -/
def escRune (v : Nat) : Option Char :=
  if v > 0x10FFFF then none
  else if 0xD800 ≤ v ∧ v ≤ 0xDFFF then some (Char.ofNat 0xFFFD)
  else some (Char.ofNat v)

/-- Parse the remainder of a double-quoted Go string literal (the opening
quote already consumed); returns the unquoted content and the input past
the closing quote (Go `strconv` unquoting with quote `"`). -/
def unquoteDouble : Str → Option (Str × Str)
  | [] => none
  | c :: rest =>
    if c = dq then some ([], rest)
    else if c = nl then none
    else if c = bsl then
      match rest with
      | [] => none
      | e :: rest1 =>
        if e = 'a' then (unquoteDouble rest1).map (fun p => (Char.ofNat 7 :: p.1, p.2))
        else if e = 'b' then (unquoteDouble rest1).map (fun p => (Char.ofNat 8 :: p.1, p.2))
        else if e = 'f' then (unquoteDouble rest1).map (fun p => (Char.ofNat 12 :: p.1, p.2))
        else if e = 'n' then (unquoteDouble rest1).map (fun p => (nl :: p.1, p.2))
        else if e = 'r' then (unquoteDouble rest1).map (fun p => (cr :: p.1, p.2))
        else if e = 't' then (unquoteDouble rest1).map (fun p => (Char.ofNat 9 :: p.1, p.2))
        else if e = 'v' then (unquoteDouble rest1).map (fun p => (Char.ofNat 11 :: p.1, p.2))
        else if e = bsl then (unquoteDouble rest1).map (fun p => (bsl :: p.1, p.2))
        else if e = dq then (unquoteDouble rest1).map (fun p => (dq :: p.1, p.2))
        else if e = 'x' then
          match rest1 with
          | h1 :: h2 :: rest2 =>
            match hexVal h1, hexVal h2 with
            | some d1, some d2 =>
              (unquoteDouble rest2).map (fun p => (Char.ofNat (d1 * 16 + d2) :: p.1, p.2))
            | _, _ => none
          | _ => none
        else if e = 'u' then
          match rest1 with
          | h1 :: h2 :: h3 :: h4 :: rest2 =>
            match hexVal h1, hexVal h2, hexVal h3, hexVal h4 with
            | some d1, some d2, some d3, some d4 =>
              match escRune (((d1 * 16 + d2) * 16 + d3) * 16 + d4) with
              | none => none
              | some ch => (unquoteDouble rest2).map (fun p => (ch :: p.1, p.2))
            | _, _, _, _ => none
          | _ => none
        else if e = 'U' then
          match rest1 with
          | h1 :: h2 :: h3 :: h4 :: h5 :: h6 :: h7 :: h8 :: rest2 =>
            match hexVal h1, hexVal h2, hexVal h3, hexVal h4,
                  hexVal h5, hexVal h6, hexVal h7, hexVal h8 with
            | some d1, some d2, some d3, some d4, some d5, some d6, some d7, some d8 =>
              match escRune (((((((d1 * 16 + d2) * 16 + d3) * 16 + d4) * 16 + d5) * 16
                  + d6) * 16 + d7) * 16 + d8) with
              | none => none
              | some ch => (unquoteDouble rest2).map (fun p => (ch :: p.1, p.2))
            | _, _, _, _, _, _, _, _ => none
          | _ => none
        else
          match octVal e, rest1 with
          | some d1, c2 :: c3 :: rest2 =>
            match octVal c2, octVal c3 with
            | some d2, some d3 =>
              if d1 * 64 + d2 * 8 + d3 > 255 then none
              else (unquoteDouble rest2).map
                (fun p => (Char.ofNat (d1 * 64 + d2 * 8 + d3) :: p.1, p.2))
            | _, _ => none
          | _, _ => none
    else (unquoteDouble rest).map (fun p => (c :: p.1, p.2))

/-- Parse the remainder of a backquoted (raw) Go string literal; carriage
returns are discarded from the content, as `strconv.Unquote` does. -/
def unquoteRaw : Str → Option (Str × Str)
  | [] => none
  | c :: rest =>
    if c = bq then some ([], rest)
    else if c = cr then unquoteRaw rest
    else (unquoteRaw rest).map (fun p => (c :: p.1, p.2))

/-- Model of `tryUnquoteString`: if `s` starts with a syntactically valid
double-quoted or backquoted span, return the unquoted content together
with the input past the span, else `none`. -/
def tryUnquoteString : Str → Option (Str × Str)
  | [] => none
  | c :: rest =>
    if c = dq then unquoteDouble rest
    else if c = bq then unquoteRaw rest
    else none

theorem tryUnquote_check1 :
    tryUnquoteString ("\"1.2.3.4\" msg=ok".toList) =
      some ("1.2.3.4".toList, " msg=ok".toList) := by decide

theorem tryUnquote_check2 : tryUnquoteString ("a=1".toList) = none := by decide

/-! ## Model of Go `html.UnescapeString`

Subset model covering the four basic named entities; the parser applies
it once to every literal after a successful parse.  None of the
theorems below depend on entity coverage beyond these. -/

/-- Modelled subset of Go `html.UnescapeString` (basic named entities). -/
def htmlUnescape : Str → Str
  | [] => []
  | '&' :: 'l' :: 't' :: ';' :: rest => '<' :: htmlUnescape rest
  | '&' :: 'g' :: 't' :: ';' :: rest => '>' :: htmlUnescape rest
  | '&' :: 'a' :: 'm' :: 'p' :: ';' :: rest => '&' :: htmlUnescape rest
  | '&' :: 'q' :: 'u' :: 'o' :: 't' :: ';' :: rest => dq :: htmlUnescape rest
  | c :: rest => c :: htmlUnescape rest

/-! ## The extract-pipe data model (`pipe_extract.go`) -/

/-- One step of a compiled extraction pattern: the literal text before
the capture (`prefix` in Go; renamed `pre` because `prefix` is reserved
in Lean) and the capture's field name (empty for anonymous captures). -/
structure extractFormatStep where
  pre : Str
  field : Str
deriving DecidableEq

/-- Normalization of anonymous capture markers performed by the parser:
`_` and `*` become the empty field name. -/
def normalizeField (f : Str) : Str :=
  if f = ['_'] ∨ f = ['*'] then [] else f

/-- The loop body of `parseExtractFormatSteps`: `pre` is the literal
preceding the capture whose name starts `s` (the `<` already consumed).
Mirrors the `for` loop of common.go lines 536-570. -/
def parseLoop (pre s : Str) : Except String (List extractFormatStep) :=
  match h1 : splitOnChar '>' s with
  | none => Except.error "missing closing angle bracket for capture"
  | some (fld, rest) =>
    if rest = [] then Except.ok [⟨pre, normalizeField fld⟩]
    else
      match h2 : splitOnChar '<' rest with
      | none => Except.ok [⟨pre, normalizeField fld⟩, ⟨rest, []⟩]
      | some (d, rest2) =>
        if d = [] then Except.error "missing delimiter after capture"
        else (parseLoop d rest2).map (fun steps => ⟨pre, normalizeField fld⟩ :: steps)
termination_by s.length
decreasing_by
  have a1 := splitOnChar_some_length '>' s (fld, rest) h1
  have a2 := splitOnChar_some_length '<' rest (d, rest2) h2
  simp only at a1 a2
  omega

/-- Model of `parseExtractFormatSteps` (common.go lines 525-582).  The Go
code tracks `hasNamedField` during the loop and checks it after; this is
equivalent to checking `steps.any` afterwards since the steps record the
normalized field names.  On success every literal is HTML-unescaped. -/
def parseExtractFormatSteps (s : Str) : Except String (List extractFormatStep) :=
  match splitOnChar '<' s with
  | none => Except.error "missing angle-bracket fields"
  | some (pre0, rest) =>
    match parseLoop pre0 rest with
    | Except.error e => Except.error e
    | Except.ok steps =>
      if steps.any (fun st => ¬ st.field.isEmpty) then
        Except.ok (steps.map (fun st => ⟨htmlUnescape st.pre, st.field⟩))
      else Except.error "missing named fields"

/-- Spec-side relaxed decomposition of a pattern into its
(literal, capture-name) pairs, following the spec's description of the
pattern shape `literal<name1>literal2<name2>...`: unlike the parser it
does not reject empty delimiters and does not normalize or check field
names, so it can name the captures of patterns the parser rejects. -/
def specLoop (pre s : Str) : Option (List (Str × Str)) :=
  match h1 : splitOnChar '>' s with
  | none => none
  | some (fld, rest) =>
    if rest = [] then some [(pre, fld)]
    else
      match h2 : splitOnChar '<' rest with
      | none => some [(pre, fld)]
      | some (d, rest2) => (specLoop d rest2).map (fun ps => (pre, fld) :: ps)
termination_by s.length
decreasing_by
  have a1 := splitOnChar_some_length '>' s (fld, rest) h1
  have a2 := splitOnChar_some_length '<' rest (d, rest2) h2
  simp only at a1 a2
  omega

/-- Spec-side list of (preceding literal, capture name) pairs of a
pattern, `none` when the pattern has no well-delimited capture list. -/
def specCaptures (s : Str) : Option (List (Str × Str)) :=
  match splitOnChar '<' s with
  | none => none
  | some (pre0, rest) => specLoop pre0 rest

theorem parse_check1 :
    parseExtractFormatSteps ("ip=<ip> msg=<msg>".toList) =
      Except.ok [⟨"ip=".toList, "ip".toList⟩, ⟨" msg=".toList, "msg".toList⟩] := by
  simp [parseExtractFormatSteps, parseLoop, splitOnChar, normalizeField]
  simp [Except.map, htmlUnescape]

/-! ## The compiled matcher (`extractFormat`) -/

/-- The per-step matching loop of `extractFormat.apply` (common.go lines
474-504), processing the remaining steps against the remaining input.
The step's own literal has already been consumed; `nextPrefix` is the
literal of the following step (empty for the last step).  Aborting on a
mismatch leaves every not-yet-assigned slot at the empty string — the
buffer was cleared at the start of the call — which the functional model
renders as `List.replicate _ []` padding. -/
def applySteps : List extractFormatStep → Str → List Str
  | [], _ => []
  | _ :: tail, s =>
    let nextPre : Str := match tail with | [] => [] | nx :: _ => nx.pre
    match tryUnquoteString s with
    | some (us, rem) =>
      -- Matched quoted string: matches[i] = us, then the next prefix
      -- must follow immediately.
      if nextPre.isPrefixOf rem then
        us :: applySteps tail (rem.drop nextPre.length)
      else
        us :: List.replicate tail.length []
    | none =>
      -- Match unquoted string until the next prefix.
      if nextPre = [] then
        s :: List.replicate tail.length []
      else
        match indexOfSub s nextPre with
        | none => List.replicate (tail.length + 1) []
        | some n => s.take n :: applySteps tail (s.drop (n + nextPre.length))

/-- Model of `extractFormat.apply` (common.go lines 459-505): clears the
match buffer, locates the first step's literal anywhere in the input,
then runs the per-step loop.  Returns the matches buffer. -/
def extractFormatApply (steps : List extractFormatStep) (s : Str) : List Str :=
  match steps with
  | [] => []
  | st :: _ =>
    if st.pre = [] then applySteps steps s
    else
      match indexOfSub s st.pre with
      | none => List.replicate steps.length []
      | some n => applySteps steps (s.drop (n + st.pre.length))

/-- The compiled matcher: immutable steps, the reusable matches buffer
(one slot per step), and the `fields` view pairing each non-empty field
name with the index of its matches slot (the Go code stores a pointer
`&matches[i]`; the functional model stores the index `i`). -/
structure extractFormat where
  steps : List extractFormatStep
  matchesBuf : List Str
  fields : List (Str × Nat)
deriving DecidableEq

/-- The `fields` view built by the `newExtractFormat` loop: the steps
with a non-empty field name, each paired with its slot index. -/
def mkFields : Nat → List extractFormatStep → List (Str × Nat)
  | _, [] => []
  | i, st :: rest =>
    if st.field = [] then mkFields (i + 1) rest
    else (st.field, i) :: mkFields (i + 1) rest

/-- Model of `newExtractFormat` (common.go lines 431-457).  The two
`logger.Panicf` branches (empty steps, no named field) are modelled as
`none`. -/
def newExtractFormat (steps : List extractFormatStep) : Option extractFormat :=
  if steps = [] then none
  else
    let fields := mkFields 0 steps
    if fields = [] then none
    else some ⟨steps, List.replicate steps.length [], fields⟩

/-- `extractFormat.apply` as a state transformer: the call overwrites the
matches buffer (clearing it first) and leaves steps and fields alone. -/
def applyEF (ef : extractFormat) (s : Str) : extractFormat :=
  { ef with matchesBuf := extractFormatApply ef.steps s }

/-! ## The pipe stage and its sharded processor -/

/-- Model of `pipeExtract`: source field, compiled steps, and the kept
textual form of the pattern. -/
structure pipeExtract where
  field : Str
  steps : List extractFormatStep
  stepsStr : Str

/-- Model of `pipeExtract.newPipeProcessor` (common.go lines 348-366):
one shard per worker, each holding its own matcher freshly compiled by
`newExtractFormat(pe.steps)`; a panic in `newExtractFormat` is `none`.
Only the shards' matcher states are modelled — `stopCh` and `ppBase` are
runtime wiring. -/
def newPipeProcessor (pe : pipeExtract) (workersCount : Nat) :
    Option (List extractFormat) :=
  if workersCount = 0 then some []
  else (newExtractFormat pe.steps).map (List.replicate workersCount)

/-- A columnar block: shared timestamps array plus named columns.  The
column values are materialized as plain strings. -/
structure blockResult where
  timestamps : List Int
  columns : List (Str × List Str)

/-- Modelled from the spec: the external column-access contract
`getColumnByName(name)` / `Column.getValues(block)` — per-row values of
the named column, one per timestamp; the `blockResult` implementation is
not part of the shown sources. -/
def getColumnValues (br : blockResult) (name : Str) : List Str :=
  match br.columns.find? (fun c2 => c2.1 = name) with
  | some c2 => c2.2
  | none => List.replicate br.timestamps.length []

/-- Model of `pipeExtractProcessor.writeBlock` (common.go lines 387-404)
for one shard: zero-row blocks are a no-op; otherwise the shard's
matcher is applied to every value of the source column in row order.
The per-row results are discarded (the result-wiring loop is commented
out in the source) and nothing is forwarded to `ppBase`: the second
component is the list of blocks passed downstream, always `[]`. -/
def writeBlock (pe : pipeExtract) (shard : extractFormat) (br : blockResult) :
    extractFormat × List blockResult :=
  if br.timestamps.length = 0 then (shard, [])
  else
    let values := getColumnValues br pe.field
    (values.foldl applyEF shard, [])

/-- Sequential processing of a list of rows by one shard's matcher,
recording the matches buffer after each row. -/
def runRows (ef : extractFormat) : List Str → List (List Str)
  | [] => []
  | v :: vs => (applyEF ef v).matchesBuf :: runRows (applyEF ef v) vs

/-- Modelled from the spec: `fieldsSet` (the needed/unneeded field-name
sets threaded through the pipeline) with its `add` and `remove`
operations; its implementation is not part of the shown sources.  Sets
of field names are modelled as `Finset Str`. -/
def fieldsSetAdd (fs : Finset Str) (f : Str) : Finset Str := insert f fs

/-- Modelled from the spec: `fieldsSet.remove`. -/
def fieldsSetRemove (fs : Finset Str) (f : Str) : Finset Str := fs.erase f

/-- Model of `pipeExtract.updateNeededFields` (common.go lines 338-346):
adds the source field to `neededFields` and removes every non-empty step
field from `unneededFields`. -/
def updateNeededFields (pe : pipeExtract) (neededFields unneededFields : Finset Str) :
    Finset Str × Finset Str :=
  (fieldsSetAdd neededFields pe.field,
   pe.steps.foldl
     (fun u st => if st.field ≠ [] then fieldsSetRemove u st.field else u)
     unneededFields)

theorem apply_check1 :
    extractFormatApply
      [⟨"ip=".toList, "ip".toList⟩, ⟨" msg=".toList, "msg".toList⟩]
      ("ip=\"1.2.3.4\" msg=ok".toList) =
      ["1.2.3.4".toList, "ok".toList] := by decide

theorem apply_check2 :
    extractFormatApply
      [⟨"a=".toList, "x".toList⟩, ⟨" b=".toList, "y".toList⟩]
      ("a=1".toList) = [[], []] := by decide

/-! ## Helper lemmas -/

theorem applySteps_length (l : List extractFormatStep) (s : Str) :
    (applySteps l s).length = l.length := by
  induction l generalizing s with
  | nil => simp [applySteps]
  | cons st tail ih =>
    rw [applySteps.eq_def]
    rcases htu : tryUnquoteString s with - | ⟨us, rem⟩ <;> simp only [htu]
    · split
      · simp
      · split <;> simp [ih]
    · split <;> simp [ih]

theorem extractFormatApply_length (steps : List extractFormatStep) (s : Str) :
    (extractFormatApply steps s).length = steps.length := by
  rcases steps with - | ⟨st, tail⟩
  · simp [extractFormatApply]
  · rw [extractFormatApply]
    split
    · exact applySteps_length _ _
    · rcases hidx : indexOfSub s st.pre with - | n
      · simp
      · exact applySteps_length _ _

theorem nil_isPrefixOf (l : Str) : (List.isPrefixOf [] l) = true := by
  simp [List.isPrefixOf_iff_prefix]

theorem isPrefixOf_append_self (p z : Str) : p.isPrefixOf (p ++ z) = true := by
  simp [List.isPrefixOf_iff_prefix]

theorem indexOfSub_append_self (p z : Str) :
    indexOfSub (p ++ z) p = some 0 := by
  rw [indexOfSub.eq_def]
  simp [isPrefixOf_append_self]

/-! ## C1 — `writeBlock` forwards nothing downstream -/

/-- C1: the claim states that `writeBlock` writes the extracted values
into same-named output columns and forwards a combined block to the
downstream processor's `writeBlock`.  The code does not: the per-row
results are computed and discarded (the result-wiring loop is commented
out) and no block is ever passed to `ppBase`.  The first conjunct shows
no call ever forwards anything; the second evaluates the processor on a
concrete one-row block, where the forwarded list is empty. -/
theorem writeBlock_forwards_nothing :
    (∀ pe shard br, (writeBlock pe shard br).2 = []) ∧
    (writeBlock ⟨"ip".toList, [⟨"ip=".toList, "ip".toList⟩], []⟩
        ⟨[⟨"ip=".toList, "ip".toList⟩], [[]], [("ip".toList, 0)]⟩
        ⟨[(0 : Int)], [("ip".toList, ["ip=1.2.3.4".toList])]⟩).2 = [] := by
  constructor
  · intro pe shard br
    rw [writeBlock]
    split <;> rfl
  · rfl

/-! ## C9 — needed-fields propagation -/

theorem foldl_remove_subset (l : List extractFormatStep) (u : Finset Str) :
    l.foldl (fun u2 st => if st.field ≠ [] then fieldsSetRemove u2 st.field else u2) u ⊆ u := by
  induction l generalizing u with
  | nil => simp
  | cons hd tl ih =>
    simp only [List.foldl_cons]
    refine (ih _).trans ?_
    split
    · exact Finset.erase_subset _ _
    · exact subset_rfl

theorem foldl_remove_not_mem (l : List extractFormatStep) (u : Finset Str)
    (st : extractFormatStep) (hmem : st ∈ l) (hne : st.field ≠ []) :
    st.field ∉
      l.foldl (fun u2 st2 => if st2.field ≠ [] then fieldsSetRemove u2 st2.field else u2) u := by
  induction l generalizing u with
  | nil => simp at hmem
  | cons hd tl ih =>
    simp only [List.foldl_cons]
    rcases List.mem_cons.mp hmem with heq | hmem'
    · subst heq
      intro hcontra
      have hsub := foldl_remove_subset tl (if st.field ≠ [] then fieldsSetRemove u st.field else u)
      have := hsub hcontra
      rw [if_pos hne] at this
      exact (Finset.not_mem_erase _ _) this
    · exact ih _ hmem'

/-- C9: after `updateNeededFields`, the pipe's source field is in the
needed set and every named step field is absent from the unneeded set. -/
theorem updateNeededFields_spec :
    ∀ pe neededFields unneededFields,
      pe.field ∈ (updateNeededFields pe neededFields unneededFields).1 ∧
      ∀ st ∈ pe.steps, st.field ≠ [] →
        st.field ∉ (updateNeededFields pe neededFields unneededFields).2 := by
  intro pe neededFields unneededFields
  constructor
  · exact Finset.mem_insert_self _ _
  · intro st hmem hne
    exact foldl_remove_not_mem pe.steps unneededFields st hmem hne

/-- C9 witness: a concrete pipe, an empty needed set and an unneeded set
holding the named capture. -/
theorem updateNeededFields_spec_witness :
    ("msg".toList ∈
      (updateNeededFields ⟨"msg".toList, [⟨"ip=".toList, "ip".toList⟩], []⟩ ∅
        {"ip".toList}).1) ∧
    ("ip".toList ∉
      (updateNeededFields ⟨"msg".toList, [⟨"ip=".toList, "ip".toList⟩], []⟩ ∅
        {"ip".toList}).2) :=
  ⟨(updateNeededFields_spec ⟨"msg".toList, [⟨"ip=".toList, "ip".toList⟩], []⟩ ∅
      {"ip".toList}).1,
   (updateNeededFields_spec ⟨"msg".toList, [⟨"ip=".toList, "ip".toList⟩], []⟩ ∅
      {"ip".toList}).2 ⟨"ip=".toList, "ip".toList⟩ (by simp) (by simp)⟩

/-! ## C5 — every call clears the buffer: no state leaks between calls -/

theorem newExtractFormat_steps (steps : List extractFormatStep) (ef0 : extractFormat)
    (h : newExtractFormat steps = some ef0) : ef0.steps = steps := by
  by_cases h1 : steps = []
  · simp [newExtractFormat, h1] at h
  · by_cases h2 : mkFields 0 steps = []
    · simp [newExtractFormat, h1, h2] at h
    · simp only [newExtractFormat, if_neg h1, if_neg h2, Option.some.injEq] at h
      rw [← h]

/-- C5: `apply` clears every slot of the matches buffer before matching,
so the buffer after a call depends only on the steps and the current
input: repeating the same input reproduces the same captured values, and
an `apply(s2)` after an `apply(s1)` leaves exactly what a freshly
compiled matcher would produce on `s2` alone. -/
theorem apply_clears_and_overwrites :
    ∀ ef s1 s2,
      (applyEF (applyEF ef s1) s1).matchesBuf = (applyEF ef s1).matchesBuf ∧
      (applyEF (applyEF ef s1) s2).matchesBuf = (applyEF ef s2).matchesBuf ∧
      ∀ ef0, newExtractFormat ef.steps = some ef0 →
        (applyEF (applyEF ef s1) s2).matchesBuf = (applyEF ef0 s2).matchesBuf := by
  intro ef s1 s2
  refine ⟨rfl, rfl, fun ef0 h => ?_⟩
  show extractFormatApply ef.steps s2 = extractFormatApply ef0.steps s2
  rw [newExtractFormat_steps ef.steps ef0 h]

/-- C5 witness: a matcher whose buffer holds a stale value; after two
calls the buffer equals that of a freshly compiled matcher. -/
theorem apply_clears_and_overwrites_witness :
    (applyEF (applyEF ⟨[⟨"a=".toList, "x".toList⟩], ["STALE".toList], []⟩ ("a=1".toList))
        ("a=2".toList)).matchesBuf =
      (applyEF ⟨[⟨"a=".toList, "x".toList⟩], [[]], [("x".toList, 0)]⟩ ("a=2".toList)).matchesBuf :=
  (apply_clears_and_overwrites ⟨[⟨"a=".toList, "x".toList⟩], ["STALE".toList], []⟩
      ("a=1".toList) ("a=2".toList)).2.2
    ⟨[⟨"a=".toList, "x".toList⟩], [[]], [("x".toList, 0)]⟩ (by decide)

/-! ## C7 — N shards over a partition behave like one sequential matcher -/

theorem runRows_eq_map (vs : List Str) :
    ∀ ef, runRows ef vs = vs.map (fun v => extractFormatApply ef.steps v) := by
  induction vs with
  | nil => intro ef; rfl
  | cons v vs ih =>
    intro ef
    rw [runRows, ih (applyEF ef v)]
    rfl

theorem zipWith_replicate_eq_map {α β γ : Type} (f : α → β → γ) (a : α) :
    ∀ (l : List β) (n : Nat), l.length = n →
      List.zipWith f (List.replicate n a) l = l.map (f a) := by
  intro l
  induction l with
  | nil => intro n h; subst h; rfl
  | cons b l ih =>
    intro n h
    subst h
    simp only [List.length_cons, List.replicate_succ, List.zipWith_cons_cons,
      List.map_cons, List.cons.injEq, true_and]
    exact ih l.length rfl

/-- C7: the processor compiles one matcher per shard from the same
steps; any partition of the rows into per-shard lists yields, shard by
shard and row by row, the captures a single sequential matcher produces
on the concatenation of the rows. -/
theorem shards_match_sequential :
    ∀ pe n shards ef0 (parts : List (List Str)),
      newPipeProcessor pe n = some shards →
      newExtractFormat pe.steps = some ef0 →
      parts.length = n →
      (List.zipWith runRows shards parts).flatten = runRows ef0 parts.flatten := by
  intro pe n shards ef0 parts hproc hef hlen
  unfold newPipeProcessor at hproc
  split at hproc
  · rename_i hn
    subst hn
    have hsh : shards = [] := by
      cases hproc; rfl
    have hp : parts = [] := List.length_eq_zero.mp hlen
    subst hsh; subst hp
    rfl
  · rw [hef] at hproc
    simp only [Option.map_some'] at hproc
    cases hproc
    rw [zipWith_replicate_eq_map runRows ef0 parts n hlen]
    rw [runRows_eq_map parts.flatten ef0]
    have hfun : runRows ef0 = fun rows => rows.map (fun v => extractFormatApply ef0.steps v) :=
      funext fun rows => runRows_eq_map rows ef0
    rw [hfun]
    exact (List.map_flatten _ parts).symm

/-- C7 witness: two shards over a two-block partition produce the same
row results as one matcher over the concatenated rows. -/
theorem shards_match_sequential_witness :
    (List.zipWith runRows
        (List.replicate 2 ⟨[⟨"a=".toList, "x".toList⟩], [[]], [("x".toList, 0)]⟩)
        [["a=1".toList], ["a=2".toList]]).flatten =
      runRows ⟨[⟨"a=".toList, "x".toList⟩], [[]], [("x".toList, 0)]⟩
        [["a=1".toList], ["a=2".toList]].flatten :=
  shards_match_sequential ⟨"f".toList, [⟨"a=".toList, "x".toList⟩], []⟩ 2
    (List.replicate 2 ⟨[⟨"a=".toList, "x".toList⟩], [[]], [("x".toList, 0)]⟩)
    ⟨[⟨"a=".toList, "x".toList⟩], [[]], [("x".toList, 0)]⟩
    [["a=1".toList], ["a=2".toList]] (by decide) (by decide) (by decide)

/-! ## C10 — final-step behavior: quoted span discards trailing text -/

/-- C10: when the last step is reached, a valid quoted span at the head
of the remaining input is captured unquoted and the match succeeds no
matter what follows the closing quote (the empty next-prefix check
always passes, so the trailing text is discarded); without a quoted span
the final capture is the entire remainder.  The closed conjunct shows a
concrete trailing remainder being discarded. -/
theorem final_step_quoted_vs_unquoted :
    (∀ (st : extractFormatStep) s us rem,
      tryUnquoteString s = some (us, rem) → applySteps [st] s = [us]) ∧
    (∀ (st : extractFormatStep) s,
      tryUnquoteString s = none → applySteps [st] s = [s]) ∧
    (tryUnquoteString ("\"v\"TRAILING".toList) = some ("v".toList, "TRAILING".toList) ∧
      applySteps [⟨[], "x".toList⟩] ("\"v\"TRAILING".toList) = ["v".toList]) := by
  refine ⟨?_, ?_, by decide, by decide⟩
  · intro st s us rem h
    simp [applySteps, h, nil_isPrefixOf]
  · intro st s h
    simp [applySteps, h]

/-- C10 witness: the two general branches applied at concrete inputs. -/
theorem final_step_quoted_vs_unquoted_witness :
    applySteps [⟨"p=".toList, "x".toList⟩] ("\"q\" junk".toList) = ["q".toList] ∧
    applySteps [⟨"p=".toList, "x".toList⟩] ("plain".toList) = ["plain".toList] :=
  ⟨final_step_quoted_vs_unquoted.1 ⟨"p=".toList, "x".toList⟩ ("\"q\" junk".toList)
      ("q".toList) (" junk".toList) (by decide),
   final_step_quoted_vs_unquoted.2.1 ⟨"p=".toList, "x".toList⟩ ("plain".toList) (by decide)⟩

/-! ## C3 — quoted-span capture and the exact-prefix requirement -/

/-- C3: at a capture position whose input starts with a valid quoted
span, the captured value is the unquoted content and the input advances
past the span; then the remaining input must start with exactly the next
step's literal — otherwise the whole match aborts leaving all later
matches empty.  The closed conjuncts check the spec's example:
`ip=<ip> msg=<msg>` on `ip="1.2.3.4" msg=ok` extracts `ip=1.2.3.4`
(unquoted) and `msg=ok`. -/
theorem quoted_capture_spec :
    (∀ (st nx : extractFormatStep) tail s us rem,
      tryUnquoteString s = some (us, rem) →
      nx.pre.isPrefixOf rem = true →
      applySteps (st :: nx :: tail) s =
        us :: applySteps (nx :: tail) (rem.drop nx.pre.length)) ∧
    (∀ (st nx : extractFormatStep) tail s us rem,
      tryUnquoteString s = some (us, rem) →
      nx.pre.isPrefixOf rem = false →
      applySteps (st :: nx :: tail) s = us :: List.replicate (tail.length + 1) []) ∧
    (parseExtractFormatSteps ("ip=<ip> msg=<msg>".toList) =
        Except.ok [⟨"ip=".toList, "ip".toList⟩, ⟨" msg=".toList, "msg".toList⟩] ∧
      extractFormatApply [⟨"ip=".toList, "ip".toList⟩, ⟨" msg=".toList, "msg".toList⟩]
        ("ip=\"1.2.3.4\" msg=ok".toList) = ["1.2.3.4".toList, "ok".toList]) := by
  refine ⟨?_, ?_, ?_, by decide⟩
  · intro st nx tail s us rem h hpre
    simp [applySteps, h, hpre]
  · intro st nx tail s us rem h hpre
    simp [applySteps, h, hpre]
  · simp [parseExtractFormatSteps, parseLoop, splitOnChar, normalizeField]
    simp [Except.map, htmlUnescape]

/-- C3 witness: both quoted branches at concrete inputs. -/
theorem quoted_capture_spec_witness :
    applySteps [⟨"ip=".toList, "ip".toList⟩, ⟨" msg=".toList, "msg".toList⟩]
        ("\"1.2.3.4\" msg=ok".toList) = ["1.2.3.4".toList, "ok".toList] ∧
    applySteps [⟨"ip=".toList, "ip".toList⟩, ⟨" msg=".toList, "msg".toList⟩]
        ("\"1.2.3.4\"zzz".toList) = ["1.2.3.4".toList, []] := by
  constructor
  · rw [quoted_capture_spec.1 ⟨"ip=".toList, "ip".toList⟩ ⟨" msg=".toList, "msg".toList⟩ []
      ("\"1.2.3.4\" msg=ok".toList) ("1.2.3.4".toList) (" msg=ok".toList)
      (by decide) (by decide)]
    decide
  · rw [quoted_capture_spec.2.1 ⟨"ip=".toList, "ip".toList⟩ ⟨" msg=".toList, "msg".toList⟩ []
      ("\"1.2.3.4\"zzz".toList) ("1.2.3.4".toList) ("zzz".toList)
      (by decide) (by decide)]
    decide

/-! ## C4 — a row mismatch is not an error -/

/-- C4: a missing literal is never an error — `apply` always returns a
full row of values (first conjunct: one value per step).  If the first
step's literal is absent from the input, every field is empty (second
conjunct).  If a later step's literal is absent in the unquoted branch,
the current slot and every later slot stay empty (third conjunct); after
a quoted capture whose required next literal does not follow, the
already-captured value is kept and all later slots stay empty (fourth
conjunct).  The closed conjuncts check the spec's example: `a=<x> b=<y>`
on `a=1` yields `x=""` and `y=""`. -/
theorem mismatch_not_error :
    (∀ steps s, (extractFormatApply steps s).length = steps.length) ∧
    (∀ (st : extractFormatStep) tail s, st.pre ≠ [] → indexOfSub s st.pre = none →
      extractFormatApply (st :: tail) s = List.replicate (tail.length + 1) []) ∧
    (∀ (st nx : extractFormatStep) tail s, tryUnquoteString s = none → nx.pre ≠ [] →
      indexOfSub s nx.pre = none →
      applySteps (st :: nx :: tail) s = List.replicate (tail.length + 2) []) ∧
    (∀ (st nx : extractFormatStep) tail s us rem,
      tryUnquoteString s = some (us, rem) →
      nx.pre.isPrefixOf rem = false →
      applySteps (st :: nx :: tail) s = us :: List.replicate (tail.length + 1) []) ∧
    (parseExtractFormatSteps ("a=<x> b=<y>".toList) =
        Except.ok [⟨"a=".toList, "x".toList⟩, ⟨" b=".toList, "y".toList⟩] ∧
      extractFormatApply [⟨"a=".toList, "x".toList⟩, ⟨" b=".toList, "y".toList⟩]
        ("a=1".toList) = [[], []]) := by
  refine ⟨extractFormatApply_length, ?_, ?_, ?_, ?_, by decide⟩
  · intro st tail s hne hidx
    rw [extractFormatApply, if_neg hne, hidx]
    simp
  · intro st nx tail s htu hne hidx
    simp [applySteps, htu, hne, hidx]
  · intro st nx tail s us rem h hpre
    simp [applySteps, h, hpre]
  · simp [parseExtractFormatSteps, parseLoop, splitOnChar, normalizeField]
    simp [Except.map, htmlUnescape]

/-- C4 witness: the general mismatch branches at concrete inputs. -/
theorem mismatch_not_error_witness :
    extractFormatApply [⟨"a=".toList, "x".toList⟩, ⟨" b=".toList, "y".toList⟩]
        ("nothing here".toList) = [[], []] ∧
    applySteps [⟨"a=".toList, "x".toList⟩, ⟨" b=".toList, "y".toList⟩] ("1".toList)
        = [[], []] := by
  constructor
  · rw [mismatch_not_error.2.1 ⟨"a=".toList, "x".toList⟩ [⟨" b=".toList, "y".toList⟩]
      ("nothing here".toList) (by decide) (by decide)]
    decide
  · rw [mismatch_not_error.2.2.1 ⟨"a=".toList, "x".toList⟩ ⟨" b=".toList, "y".toList⟩ []
      ("1".toList) (by decide) (by decide) (by decide)]
    decide

/-! ## C8 — parser output never trips the compile-time panics -/

theorem parseLoop_ok_ne_nil (pre s : Str) (steps : List extractFormatStep)
    (h : parseLoop pre s = Except.ok steps) : steps ≠ [] := by
  rw [parseLoop.eq_def] at h
  split at h
  · exact absurd h (by simp)
  · split at h
    · cases h
      simp
    · split at h
      · cases h
        simp
      · split at h
        · exact absurd h (by simp)
        · rcases hrec : parseLoop _ _ with e | steps2
          · rw [hrec] at h
            exact absurd h (by simp [Except.map])
          · rw [hrec] at h
            simp only [Except.map, Except.ok.injEq] at h
            rw [← h]
            simp

theorem mkFields_ne_nil (steps : List extractFormatStep)
    (h : ∃ st ∈ steps, st.field ≠ []) : ∀ i, mkFields i steps ≠ [] := by
  induction steps with
  | nil => simp at h
  | cons hd tl ih =>
    intro i
    rcases h with ⟨st, hmem, hne⟩
    rcases List.mem_cons.mp hmem with heq | hmem'
    · subst heq
      rw [mkFields, if_neg hne]
      simp
    · rw [mkFields]
      split
      · exact ih ⟨st, hmem', hne⟩ (i + 1)
      · simp

/-- C8: every step list a successful `parseExtractFormatSteps` returns
is non-empty and has a step with a non-empty field name, so neither of
the two `logger.Panicf` branches of `newExtractFormat` (modelled as
`none`) can fire on parser output. -/
theorem parser_output_compiles :
    ∀ s steps, parseExtractFormatSteps s = Except.ok steps →
      (newExtractFormat steps).isSome = true := by
  intro s steps h
  rw [parseExtractFormatSteps.eq_def] at h
  split at h
  · exact absurd h (by simp)
  · rename_i pre0rest
    split at h
    · exact absurd h (by simp)
    · rename_i steps0 heq
      split at h
      · rename_i hany
        simp only [Except.ok.injEq] at h
        have hne : steps ≠ [] := by
          rw [← h]
          have := parseLoop_ok_ne_nil _ _ steps0 heq
          simp only [ne_eq, List.map_eq_nil_iff]
          exact this
        have hnamed : ∃ st ∈ steps, st.field ≠ [] := by
          rw [← h]
          simp only [List.any_eq_true, Bool.not_eq_true', List.isEmpty_eq_false,
            decide_eq_true_eq] at hany
          rcases hany with ⟨st, hmem, hf⟩
          refine ⟨⟨htmlUnescape st.pre, st.field⟩, List.mem_map_of_mem _ hmem, ?_⟩
          simpa using hf
        rw [newExtractFormat]
        rw [if_neg hne]
        simp only
        rw [if_neg (mkFields_ne_nil steps hnamed 0)]
        rfl
      · exact absurd h (by simp)

/-- C8 witness: a concrete successful parse compiles. -/
theorem parser_output_compiles_witness :
    (newExtractFormat [⟨"a=".toList, "x".toList⟩, ⟨" b=".toList, "y".toList⟩]).isSome
      = true :=
  parser_output_compiles ("a=<x> b=<y>".toList)
    [⟨"a=".toList, "x".toList⟩, ⟨" b=".toList, "y".toList⟩]
    (by simp [parseExtractFormatSteps, parseLoop, splitOnChar, normalizeField]
        simp [Except.map, htmlUnescape])

/-! ## C6 — round-trip

The claim as stated is false: "no value contains the next literal
prefix" does not prevent (a) the next literal matching *earlier* by
overlapping the value/literal boundary (value `a` before literal `aa`
in `=a· aa ·z` = `=aaaz`: the first occurrence of `aa` is at offset 0,
so `x` captures the empty string), nor (b) a value that begins with a
quote character being consumed as a quoted span and captured unquoted.
The amended statement strengthens the hypotheses accordingly. -/

/-- The input built by concatenating the steps' literals with the field
values in order. -/
def builtStr : List extractFormatStep → List Str → Str
  | st :: ss, v :: vs => st.pre ++ v ++ builtStr ss vs
  | _, _ => []

/-- Hypotheses of the amended round-trip, per capture position: the
remaining built input does not start with a quoted span, every internal
literal is non-empty, and the first occurrence of the next literal in
the remaining built input is exactly at the end of the current value
(so the value neither contains the literal nor overlaps into it). -/
def GoodVals : List extractFormatStep → List Str → Prop
  | [_], [v] => tryUnquoteString v = none
  | _ :: nx :: ss, v :: w :: vs =>
    tryUnquoteString (v ++ builtStr (nx :: ss) (w :: vs)) = none ∧
    nx.pre ≠ [] ∧
    indexOfSub (v ++ builtStr (nx :: ss) (w :: vs)) nx.pre = some v.length ∧
    GoodVals (nx :: ss) (w :: vs)
  | _, _ => False

theorem applySteps_builtStr :
    ∀ (ss : List extractFormatStep) (vs : List Str) (st : extractFormatStep) (v : Str),
      GoodVals (st :: ss) (v :: vs) →
      applySteps (st :: ss) (v ++ builtStr ss vs) = v :: vs := by
  intro ss
  induction ss with
  | nil =>
    intro vs st v hg
    cases vs with
    | nil =>
      have hq : tryUnquoteString v = none := hg
      simp only [builtStr, List.append_nil]
      simp [applySteps, hq]
    | cons w vs2 => exact absurd hg (by simp [GoodVals])
  | cons nx ss2 ih =>
    intro vs st v hg
    cases vs with
    | nil => exact absurd hg (by simp [GoodVals])
    | cons w vs2 =>
      obtain ⟨hq, hne, hidx, hrec⟩ := hg
      rw [applySteps.eq_def]
      simp only [hq, if_neg hne, hidx]
      rw [List.take_left]
      have hdrop : (v ++ builtStr (nx :: ss2) (w :: vs2)).drop (v.length + nx.pre.length)
          = w ++ builtStr ss2 vs2 := by
        rw [← List.drop_drop, List.drop_left]
        have hb : builtStr (nx :: ss2) (w :: vs2) = nx.pre ++ (w ++ builtStr ss2 vs2) := by
          simp [builtStr]
        rw [hb, List.drop_left]
      rw [hdrop, ih vs2 nx w hrec]

/-- C6 counterexample: the claim as stated fails.  Pattern `=<x>aa<y>`
parses; the values `x=a`, `y=z` contain no occurrence of the next
literal `aa`; yet applying the matcher to the built string `=aaaz`
captures `x=""` and `y="az"`, not `x="a"` and `y="z"`, because the first
occurrence of `aa` starts inside the value/literal overlap. -/
theorem roundtrip_counterexample :
    parseExtractFormatSteps ("=<x>aa<y>".toList) =
        Except.ok [⟨"=".toList, "x".toList⟩, ⟨"aa".toList, "y".toList⟩] ∧
    containsSubstr ("a".toList) ("aa".toList) = false ∧
    containsSubstr ("z".toList) ("aa".toList) = false ∧
    builtStr [⟨"=".toList, "x".toList⟩, ⟨"aa".toList, "y".toList⟩]
        ["a".toList, "z".toList] = "=aaaz".toList ∧
    extractFormatApply [⟨"=".toList, "x".toList⟩, ⟨"aa".toList, "y".toList⟩]
        ("=aaaz".toList) = [[], "az".toList] ∧
    ([[], "az".toList] : List Str) ≠ ["a".toList, "z".toList] := by
  refine ⟨?_, by decide, by decide, by decide, by decide, by decide⟩
  simp [parseExtractFormatSteps, parseLoop, splitOnChar, normalizeField]
  simp [Except.map, htmlUnescape]

/-- C6 amended: for every pattern accepted by the parser and every
assignment of values such that, at each capture position, the remaining
built input does not start with a quoted span and the first occurrence
of the next step's literal is exactly at the end of the current value
(in particular no value contains or overlaps into the next literal, and
internal literals are non-empty, which parser output guarantees),
applying the compiled matcher to the built string recovers exactly the
values. -/
theorem roundtrip_amended :
    ∀ pat steps values,
      parseExtractFormatSteps pat = Except.ok steps →
      GoodVals steps values →
      extractFormatApply steps (builtStr steps values) = values := by
  intro pat steps values hp hg
  cases steps with
  | nil => exact absurd hg (by simp [GoodVals])
  | cons st ss =>
    cases values with
    | nil => exact absurd hg (by simp [GoodVals])
    | cons v vs =>
      have hw := applySteps_builtStr ss vs st v hg
      simp only [extractFormatApply]
      by_cases hpre : st.pre = []
      · rw [if_pos hpre]
        simp only [builtStr, hpre, List.nil_append]
        exact hw
      · rw [if_neg hpre]
        simp only [builtStr, List.append_assoc]
        rw [indexOfSub_append_self]
        simp only [Nat.zero_add]
        rw [List.drop_left]
        exact hw

/-- C6 witness for the amended theorem: pattern `a=<x> b=<y>` with
values `1` and `2` satisfies the strengthened hypotheses and round-trips. -/
theorem roundtrip_amended_witness :
    extractFormatApply [⟨"a=".toList, "x".toList⟩, ⟨" b=".toList, "y".toList⟩]
      (builtStr [⟨"a=".toList, "x".toList⟩, ⟨" b=".toList, "y".toList⟩]
        ["1".toList, "2".toList]) = ["1".toList, "2".toList] :=
  roundtrip_amended ("a=<x> b=<y>".toList)
    [⟨"a=".toList, "x".toList⟩, ⟨" b=".toList, "y".toList⟩]
    ["1".toList, "2".toList]
    (by simp [parseExtractFormatSteps, parseLoop, splitOnChar, normalizeField]
        simp [Except.map, htmlUnescape])
    (by exact ⟨by decide, by decide, by decide,
          show tryUnquoteString ("2".toList) = none by decide⟩)

/-! ## C2 — exact characterization of the parser's error cases -/

/-- Whether an `Except` computation failed. -/
def isErr {ε α : Type} : Except ε α → Bool
  | Except.error _ => true
  | Except.ok _ => false

theorem specLoop_some_shape (pre s : Str) (ps : List (Str × Str))
    (h : specLoop pre s = some ps) : ∃ f t, ps = (pre, f) :: t := by
  rw [specLoop.eq_def] at h
  split at h
  · exact absurd h (by simp)
  · split at h
    · cases h
      exact ⟨_, _, rfl⟩
    · split at h
      · cases h
        exact ⟨_, _, rfl⟩
      · rcases Option.map_eq_some'.mp h with ⟨ps', hps', heq⟩
        exact ⟨_, _, heq.symm⟩

/-- Two decompositions of a string around a `>` separator and a `<`:
the `<` sits either after the separator or before it. -/
theorem sep_decomp (fld rest l r : Str)
    (heq : fld ++ '>' :: rest = l ++ '<' :: r) (hfld : ('>' : Char) ∉ fld) :
    ('>' : Char) ∈ r ∨ ∃ l2, rest = l2 ++ '<' :: r := by
  rcases List.append_eq_append_iff.mp heq with ⟨a, hl, ha⟩ | ⟨c, hf, hc⟩
  · cases a with
    | nil => simp at ha
    | cons hd tl =>
      simp only [List.cons_append, List.cons.injEq] at ha
      exact Or.inr ⟨tl, ha.2⟩
  · cases c with
    | nil => simp at hc
    | cons hd tl =>
      simp only [List.cons_append, List.cons.injEq] at hc
      rcases hc with ⟨hhd, hr⟩
      subst hhd
      exact Or.inl (by rw [hr]; simp)

/-- Two decompositions of a string at a `<`: when the left one is at the
first `<`, the right one is the same or lies further right. -/
theorem first_lt_decomp (d rest2 l r : Str)
    (heq : d ++ '<' :: rest2 = l ++ '<' :: r) (hd : ('<' : Char) ∉ d) :
    r = rest2 ∨ ∃ l3, rest2 = l3 ++ '<' :: r := by
  rcases List.append_eq_append_iff.mp heq with ⟨a, hl, ha⟩ | ⟨c, hf, hc⟩
  · cases a with
    | nil =>
      simp at ha
      exact Or.inl ha.symm
    | cons hd2 tl =>
      simp only [List.cons_append, List.cons.injEq] at ha
      exact Or.inr ⟨tl, ha.2⟩
  · cases c with
    | nil =>
      simp at hc
      exact Or.inl hc
    | cons hd2 tl =>
      simp only [List.cons_append, List.cons.injEq] at hc
      rcases hc with ⟨hhd, -⟩
      subst hhd
      exact absurd (by rw [hf]; simp : ('<' : Char) ∈ d) hd

theorem specLoop_none_unclosed_fuel :
    ∀ (n : Nat) (s pre : Str), s.length ≤ n → specLoop pre s = none →
      (('>' : Char) ∉ s) ∨ ∃ l r, s = l ++ '<' :: r ∧ ('>' : Char) ∉ r := by
  intro n
  induction n with
  | zero =>
    intro s pre hlen h
    have hs : s = [] := List.eq_nil_of_length_eq_zero (Nat.le_zero.mp hlen)
    subst hs
    exact Or.inl (by simp)
  | succ n ih =>
    intro s pre hlen h
    rw [specLoop.eq_def] at h
    split at h
    · rename_i hsplit
      exact Or.inl ((splitOnChar_eq_none_iff '>' s).mp hsplit)
    · rename_i fld rest hsplit
      split at h
      · exact absurd h (by simp)
      · split at h
        · exact absurd h (by simp)
        · rename_i d rest2 hsplit2
          have hin : specLoop d rest2 = none := Option.map_eq_none'.mp h
          have hr2len : rest2.length ≤ n := by
            have l1 := splitOnChar_some_length '>' s (fld, rest) hsplit
            have l2 := splitOnChar_some_length '<' rest (d, rest2) hsplit2
            simp only at l1 l2
            omega
          rcases splitOnChar_eq_some '>' s fld rest hsplit with ⟨hs, hnf⟩
          rcases splitOnChar_eq_some '<' rest d rest2 hsplit2 with ⟨hrest, hnd⟩
          rcases ih rest2 d hr2len hin with hno | ⟨l', r', hr2, hnr'⟩
          · refine Or.inr ⟨fld ++ '>' :: d, rest2, ?_, hno⟩
            rw [hs, hrest]
            simp
          · refine Or.inr ⟨fld ++ '>' :: d ++ '<' :: l', r', ?_, hnr'⟩
            rw [hs, hrest, hr2]
            simp

theorem specLoop_some_closed_fuel :
    ∀ (n : Nat) (s pre : Str) (ps : List (Str × Str)), s.length ≤ n →
      specLoop pre s = some ps →
      (('>' : Char) ∈ s) ∧ ∀ l r, s = l ++ '<' :: r → ('>' : Char) ∈ r := by
  intro n
  induction n with
  | zero =>
    intro s pre ps hlen h
    have hs : s = [] := List.eq_nil_of_length_eq_zero (Nat.le_zero.mp hlen)
    subst hs
    rw [specLoop.eq_def] at h
    simp [splitOnChar] at h
  | succ n ih =>
    intro s pre ps hlen h
    rw [specLoop.eq_def] at h
    split at h
    · exact absurd h (by simp)
    · rename_i fld rest hsplit
      rcases splitOnChar_eq_some '>' s fld rest hsplit with ⟨hs, hnf⟩
      refine ⟨by rw [hs]; simp, ?_⟩
      intro l r hlr
      rcases sep_decomp fld rest l r (by rw [← hs, hlr]) hnf with hgt | ⟨l2, hrest_eq⟩
      · exact hgt
      · split at h
        · rename_i hre
          rw [hre] at hrest_eq
          exact absurd hrest_eq.symm (by simp)
        · split at h
          · rename_i hsplit2
            have hnotin : ('<' : Char) ∉ rest := (splitOnChar_eq_none_iff '<' rest).mp hsplit2
            exact absurd (by rw [hrest_eq]; simp) hnotin
          · rename_i d rest2 hsplit2
            rcases Option.map_eq_some'.mp h with ⟨ps', hps', -⟩
            rcases splitOnChar_eq_some '<' rest d rest2 hsplit2 with ⟨hrest, hnd⟩
            have hr2len : rest2.length ≤ n := by
              have l1 := splitOnChar_some_length '>' s (fld, rest) hsplit
              have l2 := splitOnChar_some_length '<' rest (d, rest2) hsplit2
              simp only at l1 l2
              omega
            have ihres := ih rest2 d ps' hr2len hps'
            rcases first_lt_decomp d rest2 l2 r (by rw [← hrest, hrest_eq]) hnd with
              heq2 | ⟨l3, hr2⟩
            · rw [heq2]
              exact ihres.1
            · exact ihres.2 l3 r hr2

theorem specCaptures_none_iff (s : Str) :
    specCaptures s = none ↔
      (('<' : Char) ∉ s) ∨ ∃ l r, s = l ++ '<' :: r ∧ ('>' : Char) ∉ r := by
  constructor
  · intro h
    rw [specCaptures.eq_def] at h
    split at h
    · rename_i hsplit
      exact Or.inl ((splitOnChar_eq_none_iff '<' s).mp hsplit)
    · rename_i pre0 rest hsplit
      rcases splitOnChar_eq_some '<' s pre0 rest hsplit with ⟨hs, hnp⟩
      rcases specLoop_none_unclosed_fuel rest.length rest pre0 (Nat.le_refl _) h with
        hno | ⟨l, r, hr, hnr⟩
      · exact Or.inr ⟨pre0, rest, hs, hno⟩
      · refine Or.inr ⟨pre0 ++ '<' :: l, r, ?_, hnr⟩
        rw [hs, hr]
        simp
  · intro h
    rcases h with hno | ⟨l, r, hlr, hnr⟩
    · rw [specCaptures.eq_def]
      rw [(splitOnChar_eq_none_iff '<' s).mpr hno]
    · by_contra hne
      rcases Option.ne_none_iff_exists'.mp hne with ⟨ps, hps⟩
      rw [specCaptures.eq_def] at hps
      split at hps
      · exact absurd hps (by simp)
      · rename_i pre0 rest hsplit
        rcases splitOnChar_eq_some '<' s pre0 rest hsplit with ⟨hs, hnp⟩
        have hc := specLoop_some_closed_fuel rest.length rest pre0 ps (Nat.le_refl _) hps
        rcases first_lt_decomp pre0 rest l r (by rw [← hs, hlr]) hnp with heq2 | ⟨l3, hr2⟩
        · exact hnr (heq2 ▸ hc.1)
        · exact hnr (hc.2 l3 r hr2)

theorem parseLoop_err_iff_fuel :
    ∀ (n : Nat) (s pre : Str), s.length ≤ n →
      (isErr (parseLoop pre s) = true ↔
        (specLoop pre s = none ∨
          ∃ ps, specLoop pre s = some ps ∧ ∃ p ∈ ps.drop 1, p.1 = ([] : Str))) := by
  intro n
  induction n with
  | zero =>
    intro s pre hlen
    have hs : s = [] := List.eq_nil_of_length_eq_zero (Nat.le_zero.mp hlen)
    subst hs
    rw [parseLoop.eq_def, specLoop.eq_def]
    simp [splitOnChar, isErr]
  | succ n ih =>
    intro s pre hlen
    rw [parseLoop.eq_def, specLoop.eq_def]
    rcases hsplit : splitOnChar '>' s with - | ⟨fld, rest⟩
    · simp [isErr]
    · simp only
      by_cases hre : rest = []
      · subst hre
        simp [isErr]
      · simp only [if_neg hre]
        rcases hsplit2 : splitOnChar '<' rest with - | ⟨d, rest2⟩
        · simp [isErr]
        · simp only
          have hr2len : rest2.length ≤ n := by
            have l1 := splitOnChar_some_length '>' s (fld, rest) hsplit
            have l2 := splitOnChar_some_length '<' rest (d, rest2) hsplit2
            simp only at l1 l2
            omega
          by_cases hd : d = []
          · subst hd
            simp only [if_pos rfl]
            rcases hspec : specLoop [] rest2 with - | ps'
            · simp [isErr, hspec]
            · rcases specLoop_some_shape [] rest2 ps' hspec with ⟨f, t, hshape⟩
              subst hshape
              refine iff_of_true rfl (Or.inr ?_)
              exact ⟨(pre, fld) :: ([], f) :: t, by simp [hspec], ([], f), by simp, rfl⟩
          · simp only [if_neg hd]
            have ihr := ih rest2 d hr2len
            rcases hpl : parseLoop d rest2 with e | steps'
            · rw [hpl] at ihr
              have hlhs : isErr (Except.map
                  (fun steps => (⟨pre, normalizeField fld⟩ : extractFormatStep) :: steps)
                  (Except.error e)) = true := rfl
              rw [hlhs]
              have hrhs := ihr.mp rfl
              refine iff_of_true rfl ?_
              rcases hrhs with hnone | ⟨ps', hps', p, hmem, hp1⟩
              · exact Or.inl (by rw [hnone]; rfl)
              · refine Or.inr ⟨(pre, fld) :: ps', by rw [hps']; rfl, p, ?_, hp1⟩
                simp only [List.drop_one, List.tail_cons]
                exact List.mem_of_mem_drop hmem
            · rw [hpl] at ihr
              have hlhs : isErr (Except.map
                  (fun steps => (⟨pre, normalizeField fld⟩ : extractFormatStep) :: steps)
                  (Except.ok steps' : Except String (List extractFormatStep))) = false := rfl
              rw [hlhs]
              have hnotrhs := ihr.not.mp (by simp [isErr])
              push_neg at hnotrhs
              rcases hnotrhs with ⟨hnn, hnps⟩
              rcases Option.ne_none_iff_exists'.mp hnn with ⟨ps', hps'⟩
              have hnodrop := hnps ps' hps'
              rcases specLoop_some_shape d rest2 ps' hps' with ⟨f, t, hshape⟩
              constructor
              · intro hfalse
                exact absurd hfalse (by simp)
              · intro hcon
                exfalso
                rcases hcon with hnone | ⟨ps2, hps2, p, hmem, hp1⟩
                · rw [hps'] at hnone
                  exact absurd hnone (by simp)
                · rw [hps'] at hps2
                  simp only [Option.map_some', Option.some.injEq] at hps2
                  subst hps2
                  simp only [List.drop_one, List.tail_cons] at hmem
                  rcases List.mem_of_mem_drop (by
                      show p ∈ ps'.drop 0
                      simpa using hmem) with hmem2
                  rw [hshape] at hmem2
                  rcases List.mem_cons.mp hmem2 with hhd | htl
                  · rw [hhd] at hp1
                    exact hd hp1
                  · refine hnodrop p ?_ hp1
                    rw [hshape]
                    simp only [List.drop_one, List.tail_cons]
                    -- p ∈ t
                    exact htl

theorem parseLoop_named_iff_fuel :
    ∀ (n : Nat) (s pre : Str) (steps : List extractFormatStep) (ps : List (Str × Str)),
      s.length ≤ n →
      parseLoop pre s = Except.ok steps → specLoop pre s = some ps →
      ((∃ st ∈ steps, st.field ≠ ([] : Str)) ↔
        ∃ p ∈ ps, normalizeField p.2 ≠ ([] : Str)) := by
  intro n
  induction n with
  | zero =>
    intro s pre steps ps hlen hpl hsp
    have hs : s = [] := List.eq_nil_of_length_eq_zero (Nat.le_zero.mp hlen)
    subst hs
    rw [parseLoop.eq_def] at hpl
    simp [splitOnChar] at hpl
  | succ n ih =>
    intro s pre steps ps hlen hpl hsp
    rw [parseLoop.eq_def] at hpl
    rw [specLoop.eq_def] at hsp
    rcases hsplit : splitOnChar '>' s with - | ⟨fld, rest⟩
    · rw [hsplit] at hpl
      exact absurd hpl (by simp)
    · rw [hsplit] at hpl hsp
      simp only at hpl hsp
      by_cases hre : rest = []
      · rw [if_pos hre] at hpl hsp
        cases hpl
        cases hsp
        simp
      · rw [if_neg hre] at hpl hsp
        rcases hsplit2 : splitOnChar '<' rest with - | ⟨d, rest2⟩
        · rw [hsplit2] at hpl hsp
          cases hpl
          cases hsp
          simp
        · rw [hsplit2] at hpl hsp
          simp only at hpl hsp
          by_cases hd : d = []
          · rw [if_pos hd] at hpl
            exact absurd hpl (by simp)
          · rw [if_neg hd] at hpl
            rcases hpl2 : parseLoop d rest2 with e | steps'
            · rw [hpl2] at hpl
              exact absurd hpl (by simp [Except.map])
            · rw [hpl2] at hpl
              simp only [Except.map, Except.ok.injEq] at hpl
              rcases hspec : specLoop d rest2 with - | ps'
              · rw [hspec] at hsp
                exact absurd hsp (by simp)
              · rw [hspec] at hsp
                simp only [Option.map_some', Option.some.injEq] at hsp
                subst hsp
                rw [← hpl]
                have hr2len : rest2.length ≤ n := by
                  have l1 := splitOnChar_some_length '>' s (fld, rest) hsplit
                  have l2 := splitOnChar_some_length '<' rest (d, rest2) hsplit2
                  simp only at l1 l2
                  omega
                have hih := ih rest2 d steps' ps' hr2len hpl2 hspec
                simp only [List.mem_cons, exists_eq_or_imp]
                exact or_congr Iff.rfl hih

/-- C2: `parseExtractFormatSteps` fails exactly when the pattern has no
`<` at all, has a `<` whose remaining text holds no `>` (an unterminated
capture), has two captures separated by a zero-length literal (an empty
delimiter between consecutive captures, visible in the pattern's relaxed
decomposition `specCaptures`), or has no named capture (every capture
name normalizes to the empty name); the parser is a pure function, so an
error has no partial effect. -/
theorem parse_error_iff :
    ∀ s : Str,
      isErr (parseExtractFormatSteps s) = true ↔
        (('<' : Char) ∉ s ∨
         (∃ l r, s = l ++ '<' :: r ∧ ('>' : Char) ∉ r) ∨
         (∃ ps, specCaptures s = some ps ∧ ∃ p ∈ ps.drop 1, p.1 = ([] : Str)) ∨
         (∃ ps, specCaptures s = some ps ∧
            ∀ p ∈ ps, normalizeField p.2 = ([] : Str))) := by
  intro s
  rw [parseExtractFormatSteps.eq_def]
  rcases hsplit : splitOnChar '<' s with - | ⟨pre0, rest⟩
  · exact iff_of_true rfl (Or.inl ((splitOnChar_eq_none_iff '<' s).mp hsplit))
  · have hmem : ('<' : Char) ∈ s := splitOnChar_some_mem '<' s (pre0, rest) hsplit
    have hcap : specCaptures s = specLoop pre0 rest := by
      rw [specCaptures.eq_def, hsplit]
    simp only
    rcases hpl : parseLoop pre0 rest with e | steps0
    · have herr := (parseLoop_err_iff_fuel rest.length rest pre0 (Nat.le_refl _)).mp
        (by rw [hpl]; rfl)
      refine iff_of_true rfl ?_
      rcases herr with hnone | ⟨ps, hps, p, hmemp, hp1⟩
      · have hnone2 : specCaptures s = none := by rw [hcap, hnone]
        rcases (specCaptures_none_iff s).mp hnone2 with h1 | h2
        · exact Or.inl h1
        · exact Or.inr (Or.inl h2)
      · exact Or.inr (Or.inr (Or.inl ⟨ps, by rw [hcap]; exact hps, p, hmemp, hp1⟩))
    · have hok : isErr (parseLoop pre0 rest) = false := by rw [hpl]; rfl
      have hnot := (parseLoop_err_iff_fuel rest.length rest pre0 (Nat.le_refl _)).not.mp
        (by simp [hok])
      push_neg at hnot
      rcases hnot with ⟨hnn, hnps⟩
      rcases Option.ne_none_iff_exists'.mp hnn with ⟨ps, hps⟩
      have hiff := parseLoop_named_iff_fuel rest.length rest pre0 steps0 ps
        (Nat.le_refl _) hpl hps
      by_cases hany : steps0.any (fun st => ¬ st.field.isEmpty) = true
      · refine iff_of_false (by
          have hex : ∃ x ∈ steps0, ¬x.field = ([] : Str) := by
            simpa [List.any_eq_true, decide_eq_true_eq, List.isEmpty_iff] using hany
          simp [isErr, hex]) ?_
        intro hcon
        rcases hcon with h1 | h2 | h3 | h4
        · exact h1 hmem
        · have hcontra : specCaptures s = none := (specCaptures_none_iff s).mpr (Or.inr h2)
          rw [hcap, hps] at hcontra
          exact absurd hcontra (by simp)
        · rcases h3 with ⟨ps2, hps2, p, hmemp, hp1⟩
          rw [hcap, hps] at hps2
          simp only [Option.some.injEq] at hps2
          subst hps2
          exact hnps ps hps p hmemp hp1
        · rcases h4 with ⟨ps2, hps2, hall⟩
          rw [hcap, hps] at hps2
          simp only [Option.some.injEq] at hps2
          subst hps2
          have hex : ∃ st ∈ steps0, st.field ≠ ([] : Str) := by
            simp only [List.any_eq_true, decide_eq_true_eq, List.isEmpty_iff] at hany
            exact hany
          rcases hiff.mp hex with ⟨p, hpmem, hpne⟩
          exact hpne (hall p hpmem)
      · refine iff_of_true (by
          have hnex : ¬∃ x ∈ steps0, ¬x.field = ([] : Str) := by
            simpa [List.any_eq_true, decide_eq_true_eq, List.isEmpty_iff] using hany
          simp [isErr, hnex]) ?_
        refine Or.inr (Or.inr (Or.inr ⟨ps, by rw [hcap]; exact hps, ?_⟩))
        intro p hpmem
        by_contra hne
        rcases hiff.mpr ⟨p, hpmem, hne⟩ with ⟨st, hstmem, hstne⟩
        refine hany ?_
        simp only [List.any_eq_true, decide_eq_true_eq, List.isEmpty_iff]
        exact ⟨st, hstmem, hstne⟩

/-- C2 witness: a concrete unterminated capture is rejected. -/
theorem parse_error_iff_witness :
    isErr (parseExtractFormatSteps ("a=<x".toList)) = true :=
  (parse_error_iff ("a=<x".toList)).mpr
    (Or.inr (Or.inl ⟨"a=".toList, "x".toList, by decide, by decide⟩))
